import Mathlib

/-!
Verification of `scripts/rss_to_posts.py`: a shallow embedding of the
ingestion-and-dedup pipeline (identity resolution, slug generation, summary
extraction, document rendering, manifest store, orchestration) together with
theorems about its behaviour.

Strings are modelled as Lean `String`/`List Char` (Python `str` is a sequence
of code points, as is `String.data`).  Python regular-expression substitutions
that replace maximal runs of a character class are modelled by the structural
scanner `subRunsAux`; the tag-removal substitution `re.sub(r"<[^>]+>", " ", _)`
is modelled by the structural scanner `stripTagsAux`.  Machine 32-bit words in
SHA-1 are `Nat` reduced by `% 2 ^ 32`.  File-system and network effects are
modelled by explicit inputs: the parsed feed content is a function from feed
URL to entry list, the manifest file content is an explicit argument, and each
write of the manifest file is recorded in the run result.
-/

set_option maxRecDepth 100000

/-- Python `\s` (ASCII range): the whitespace characters recognised by
`str.strip()` and `re.sub(r"\s+", ...)` for the ASCII inputs considered here. -/
def isPySpace (c : Char) : Bool :=
  c = ' ' || c = '\t' || c = '\n' || c = '\r' || c = '\x0b' || c = '\x0c'

/-- Python `str.lower()`, character-wise (ASCII case mapping). -/
def pyLower (l : List Char) : List Char :=
  l.map Char.toLower

/-- Strip `p`-characters from the right end of a list
(Python `str.rstrip()` when `p` is whitespace). -/
def stripRight (p : Char → Bool) (l : List Char) : List Char :=
  ((l.reverse).dropWhile p).reverse

/-- Strip `p`-characters from both ends (Python `str.strip()` /
`str.strip("-")`). -/
def stripEnds (p : Char → Bool) (l : List Char) : List Char :=
  stripRight p (l.dropWhile p)

/-- Python `str.strip()` on a `String`. -/
def pyStripStr (s : String) : String :=
  String.mk (stripEnds isPySpace s.data)

/-- Replace every maximal run of `p`-characters by the single character `r`:
the effect of Python `re.sub(r"[class]+", r, text)`.  The flag records whether
the scanner is currently inside a run. -/
def subRunsAux (p : Char → Bool) (r : Char) : Bool → List Char → List Char
  | _, [] => []
  | inRun, c :: rest =>
    if p c then
      if inRun then subRunsAux p r true rest
      else r :: subRunsAux p r true rest
    else c :: subRunsAux p r false rest

/-- `re.sub(r"[class]+", r, text)` starting outside any run. -/
def subRuns (p : Char → Bool) (r : Char) (l : List Char) : List Char :=
  subRunsAux p r false l

/-- Python `text.split(",")` on a character list: split at every comma,
keeping empty pieces (so `"" → [""]` and `"," → ["", ""]`). -/
def splitCommas (l : List Char) : List (List Char) :=
  l.foldr
    (fun c acc =>
      match acc with
      | [] => [[c]]
      | h :: t => if c = ',' then [] :: h :: t else (c :: h) :: t)
    [[]]

/-- Code-point lexicographic `≤` on character lists: Python's `str` comparison,
used by `list.sort(key=..., reverse=True)` on the `date_iso` strings. -/
def lexLe : List Char → List Char → Bool
  | [], _ => true
  | _ :: _, [] => false
  | a :: as, b :: bs => if a = b then lexLe as bs else decide (a < b)

/-- Does `l` begin with a non-empty run of non-`'>'` characters followed by
`'>'`?  This is exactly "the regex `[^>]+>` matches a prefix of `l`". -/
def completesTag (l : List Char) : Bool :=
  let r := l.takeWhile (fun c => c ≠ '>')
  !r.isEmpty && decide (r.length < l.length)

/-- Does `l` contain a substring matched by `<[^>]+>` (a markup tag)? -/
def hasTag : List Char → Bool
  | [] => false
  | c :: rest => (c = '<' && completesTag rest) || hasTag rest

/-- Scanner for `re.sub(r"<[^>]+>", " ", html)`: a leftmost-longest match of
`<[^>]+>` is replaced by one space.  The state holds the pending candidate tag
(a `'<'` followed by the non-`'>'` characters read so far); a candidate that
can no longer match (`<>` or end of input) is emitted verbatim, exactly as the
unmatched text is left untouched by `re.sub`. -/
def stripTagsAux : Option (List Char) → List Char → List Char
  | none, [] => []
  | some p, [] => p
  | none, c :: rest =>
    if c = '<' then stripTagsAux (some ['<']) rest
    else c :: stripTagsAux none rest
  | some p, c :: rest =>
    if c = '>' then
      if 2 ≤ p.length then ' ' :: stripTagsAux none rest
      else p ++ '>' :: stripTagsAux none rest
    else stripTagsAux (some (p ++ [c])) rest

/-- `re.sub(r"<[^>]+>", " ", html)`. -/
def stripTags (l : List Char) : List Char :=
  stripTagsAux none l

/-- Python slicing `l[:i]` with a possibly negative bound, as used by
`txt[: max_len - 1]`. -/
def pySliceTo (l : List Char) (i : Int) : List Char :=
  if 0 ≤ i then l.take i.toNat else l.take (l.length - (-i).toNat)

/-- The markup-stripped, whitespace-collapsed, end-stripped text computed by
the first two lines of `summarize_text`. -/
def cleanText (html : String) : List Char :=
  stripEnds isPySpace (subRuns isPySpace ' ' (stripTags html.data))

/-- `summarize_text(html, max_len=280)`: strip tags, collapse whitespace,
strip, and truncate to `max_len - 1` characters plus an ellipsis when the text
is longer than `max_len`. -/
def summarize_text (html : String) (maxLen : Nat) : String :=
  let txt := cleanText html
  if maxLen < txt.length then
    String.mk (stripRight isPySpace (pySliceTo txt ((maxLen : Int) - 1)) ++ ['…'])
  else
    String.mk txt

/-- Lower-case ASCII letter or digit. -/
def lowAlnum (c : Char) : Bool :=
  ('a' ≤ c && c ≤ 'z') || ('0' ≤ c && c ≤ '9')

/-- Character allowed by the slug alphabet `[a-z0-9-]`
(the complement of `_slug_invalid = re.compile(r"[^a-z0-9\-]+")`). -/
def slugChar (c : Char) : Bool :=
  lowAlnum c || c = '-'

/-- `slugify(text)`: lower-case, strip, whitespace runs to `-`, invalid-char
runs to `-`, hyphen runs collapsed, hyphens stripped from the ends, with the
literal fallback `"post"` for an empty result. -/
def slugify (s : String) : String :=
  let t := stripEnds isPySpace (pyLower s.data)
  let t := subRuns isPySpace '-' t
  let t := subRuns (fun c => !slugChar c) '-' t
  let t := subRuns (fun c => c = '-') '-' t
  let t := stripEnds (fun c => c = '-') t
  if t.isEmpty then "post" else String.mk t

/-- Adjacent hyphen pairs, as a relation for `List.Chain'`: two neighbouring
characters may not both be `'-'`. -/
def notBothHyphens (a b : Char) : Prop :=
  ¬(a = '-' ∧ b = '-')

instance (a b : Char) : Decidable (notBothHyphens a b) := by
  unfold notBothHyphens; infer_instance

/-- Decides the regular expression `^[a-z0-9]+(-[a-z0-9]+)*$`: non-empty, all
characters in `[a-z0-9-]`, no leading or trailing hyphen, and no two adjacent
hyphens. -/
def matchesSlugRe (s : String) : Bool :=
  !s.data.isEmpty &&
  s.data.all slugChar &&
  s.data.head?.all (fun c => c ≠ '-') &&
  s.data.getLast?.all (fun c => c ≠ '-') &&
  decide (List.Chain' notBothHyphens s.data)

/-! ### SHA-1 (`hashlib.sha1(...).hexdigest()`)

32-bit words are `Nat` values kept below `2 ^ 32` by explicit reduction. -/

/-- Reduce to a 32-bit word. -/
def w32 (n : Nat) : Nat := n % 4294967296

/-- 32-bit left rotation of a word. -/
def rotl (s n : Nat) : Nat := w32 (n <<< s) ||| (n >>> (32 - s))

/-- 32-bit complement of a word. -/
def not32 (n : Nat) : Nat := n ^^^ 4294967295

/-- Number of zero padding bytes so that message+1+zeros is 56 mod 64. -/
def sha1PadZeros (len : Nat) : Nat := (119 - len % 64) % 64

/-- 64-bit big-endian byte encoding. -/
def beBytes8 (n : Nat) : List Nat :=
  [n >>> 56 % 256, n >>> 48 % 256, n >>> 40 % 256, n >>> 32 % 256,
   n >>> 24 % 256, n >>> 16 % 256, n >>> 8 % 256, n % 256]

/-- SHA-1 message padding: `0x80`, zeros, then the bit length, big-endian. -/
def sha1Pad (msg : List Nat) : List Nat :=
  msg ++ 0x80 :: List.replicate (sha1PadZeros msg.length) 0 ++ beBytes8 ((8 * msg.length) % 2 ^ 64)

/-- Big-endian 32-bit words from a byte list. -/
def bytesToWords : List Nat → List Nat
  | b0 :: b1 :: b2 :: b3 :: rest => (b0 <<< 24 ||| b1 <<< 16 ||| b2 <<< 8 ||| b3) :: bytesToWords rest
  | _ => []

/-- Extend the 16 chunk words by `k` further schedule words. -/
def extendWords : List Nat → Nat → List Nat
  | ws, 0 => ws
  | ws, k + 1 =>
    extendWords (ws ++ [rotl 1 (ws.getD (ws.length - 3) 0 ^^^ ws.getD (ws.length - 8) 0 ^^^
      ws.getD (ws.length - 14) 0 ^^^ ws.getD (ws.length - 16) 0)]) k

/-- The five 32-bit SHA-1 registers. -/
structure Sha1Regs where
  a : Nat
  b : Nat
  c : Nat
  d : Nat
  e : Nat
deriving DecidableEq

/-- Round function, by round index. -/
def sha1F (i b c d : Nat) : Nat :=
  if i < 20 then (b &&& c) ||| (not32 b &&& d)
  else if i < 40 then b ^^^ c ^^^ d
  else if i < 60 then (b &&& c) ||| (b &&& d) ||| (c &&& d)
  else b ^^^ c ^^^ d

/-- Round constant, by round index. -/
def sha1K (i : Nat) : Nat :=
  if i < 20 then 0x5A827999
  else if i < 40 then 0x6ED9EBA1
  else if i < 60 then 0x8F1BBCDC
  else 0xCA62C1D6

/-- The 80 compression rounds over the word schedule. -/
def sha1Rounds (i : Nat) (r : Sha1Regs) : List Nat → Sha1Regs
  | [] => r
  | w :: rest =>
    sha1Rounds (i + 1)
      { a := w32 (rotl 5 r.a + sha1F i r.b r.c r.d + r.e + sha1K i + w),
        b := r.a, c := rotl 30 r.b, d := r.c, e := r.d } rest

/-- Compress one 64-byte chunk into the running registers. -/
def sha1Chunk (h : Sha1Regs) (chunk : List Nat) : Sha1Regs :=
  let r := sha1Rounds 0 h (extendWords (bytesToWords chunk) 64)
  { a := w32 (h.a + r.a), b := w32 (h.b + r.b), c := w32 (h.c + r.c),
    d := w32 (h.d + r.d), e := w32 (h.e + r.e) }

/-- Fold the compression over consecutive 64-byte chunks. -/
def sha1Chunks (h : Sha1Regs) : List Nat → Sha1Regs
  | [] => h
  | b :: rest => sha1Chunks (sha1Chunk h ((b :: rest).take 64)) (rest.drop 63)
termination_by l => l.length
decreasing_by
  simp only [List.length_drop, List.length_cons]
  omega

/-- SHA-1 initial register values. -/
def sha1Init : Sha1Regs :=
  { a := 0x67452301, b := 0xEFCDAB89, c := 0x98BADCFE, d := 0x10325476, e := 0xC3D2E1F0 }

/-- Lower-case hexadecimal digit. -/
def hexDig (n : Nat) : Char :=
  match n with
  | 0 => '0' | 1 => '1' | 2 => '2' | 3 => '3' | 4 => '4'
  | 5 => '5' | 6 => '6' | 7 => '7' | 8 => '8' | 9 => '9'
  | 10 => 'a' | 11 => 'b' | 12 => 'c' | 13 => 'd' | 14 => 'e'
  | _ => 'f'

/-- Eight hex digits of a 32-bit word, most significant first. -/
def toHex8 (n : Nat) : List Char :=
  [hexDig (n >>> 28 % 16), hexDig (n >>> 24 % 16), hexDig (n >>> 20 % 16), hexDig (n >>> 16 % 16),
   hexDig (n >>> 12 % 16), hexDig (n >>> 8 % 16), hexDig (n >>> 4 % 16), hexDig (n % 16)]

/-- UTF-8 encoding of one code point (Python `str.encode("utf-8")`). -/
def utf8Char (c : Char) : List Nat :=
  let n := c.toNat
  if n < 0x80 then [n]
  else if n < 0x800 then [0xC0 ||| n >>> 6, 0x80 ||| (n &&& 0x3F)]
  else if n < 0x10000 then
    [0xE0 ||| n >>> 12, 0x80 ||| (n >>> 6 &&& 0x3F), 0x80 ||| (n &&& 0x3F)]
  else
    [0xF0 ||| n >>> 18, 0x80 ||| (n >>> 12 &&& 0x3F), 0x80 ||| (n >>> 6 &&& 0x3F), 0x80 ||| (n &&& 0x3F)]

/-- UTF-8 encoding of a code-point sequence. -/
def utf8Bytes (l : List Char) : List Nat :=
  (l.map utf8Char).flatten

/-- `hashlib.sha1(s.encode("utf-8")).hexdigest()`. -/
def sha1Hex (s : String) : String :=
  let r := sha1Chunks sha1Init (sha1Pad (utf8Bytes s.data))
  String.mk (toHex8 r.a ++ toHex8 r.b ++ toHex8 r.c ++ toHex8 r.d ++ toHex8 r.e)

/-! ### Data model -/

/-- The publish/update timestamp of an entry after conversion by
`datetime.fromtimestamp(time.mktime(...), tz=timezone.utc)`: we record the two
renderings the pipeline reads from it, `isoformat()` and
`strftime("%Y-%m-%d")`, abstracting the calendar arithmetic of the external
`time`/`datetime` collaborators. -/
structure PyDateTime where
  iso : String
  ymd : String
deriving DecidableEq

/-- A feedparser entry as consumed by the script: optional `id`, `link`,
`title`, `summary` attributes (`none` models an absent attribute), the list of
content-part values (`[]` models an absent or empty `content` attribute), and
the optional converted `published_parsed` / `updated_parsed` timestamps
(`none` models an absent attribute or a failing conversion). -/
structure FeedEntry where
  id : Option String
  link : Option String
  title : Option String
  summary : Option String
  content : List String
  published : Option PyDateTime
  updated : Option PyDateTime
deriving DecidableEq

/-- Python truthiness of `getattr(entry, attr, None)` for a string attribute:
present and non-empty. -/
def optTruthy : Option String → Bool
  | none => false
  | some s => !s.isEmpty

/-- `post_identity(entry)`: prefer the native id, then the link, then the
SHA-1 hex digest of `(title + "|" + summary)[:512]`. -/
def post_identity (e : FeedEntry) : String :=
  if optTruthy e.id then e.id.getD ""
  else if optTruthy e.link then e.link.getD ""
  else sha1Hex (((e.title.getD "") ++ "|" ++ (e.summary.getD "")).take 512)

/-- `pick_datetime(entry)`: prefer `published_parsed`, then `updated_parsed`,
then the current wall-clock time `now` (an input of the run). -/
def pick_datetime (e : FeedEntry) (now : PyDateTime) : PyDateTime :=
  match e.published with
  | some d => d
  | none =>
    match e.updated with
    | some d => d
    | none => now

/-- A persisted manifest record, with the seven fields written by `main`. -/
structure PostRecord where
  id : String
  title : String
  slug : String
  path : String
  date_iso : String
  source : String
  summary : String
deriving DecidableEq

/-- `getattr(entry, "title", "Untitled").strip() or "Untitled"`. -/
def resolveTitle (e : FeedEntry) : String :=
  let t := pyStripStr (e.title.getD "Untitled")
  if t.isEmpty then "Untitled" else t

/-- Content selection: join the non-empty content-part values with spaces,
else fall back to `summary`, else the empty string. -/
def contentOf (e : FeedEntry) : String :=
  let c := if e.content.isEmpty then "" else String.intercalate " " (e.content.filter (fun v => !v.isEmpty))
  if c.isEmpty then e.summary.getD "" else c

/-- Site-wide stylesheet path referenced by every rendered page. -/
def STYLES_HREF : String := "/styles.css"

/-- Site-wide script path referenced by every rendered page. -/
def SCRIPT_SRC : String := "/site.js"

/-- The optional source-link paragraph: emitted only for a truthy link. -/
def sourceSnippet : Option String → String
  | none => ""
  | some l =>
    if l.isEmpty then ""
    else "<p><a href=\"" ++ (l ++ "\" rel=\"noopener noreferrer\">Source</a></p>")

/-- `render_html(title, date_iso, content_html, source_link)`: the f-string
template of the script, with `ads` the content of the optional ad snippet file
(`none` models an absent or unreadable file, rendered as the empty string).
Dynamic fields are interpolated verbatim. -/
def render_html (title date_iso content_html : String) (source_link : Option String)
    (ads : Option String) : String :=
  "<!doctype html>\n<html lang=\"en\">\n<head>\n  <meta charset=\"utf-8\">\n  <meta name=\"viewport\" content=\"width=device-width,initial-scale=1\">\n  <title>" ++
  (title ++
  ("</title>\n  <link rel=\"stylesheet\" href=\"" ++
  (STYLES_HREF ++
  ("\">\n</head>\n<body>\n  <header>\n    <h1>" ++
  (title ++
  ("</h1>\n    <p><small>Published: " ++
  (date_iso ++
  ("</small></p>\n  </header>\n\n  <main>\n    " ++
  (content_html ++
  ("\n    " ++
  (sourceSnippet source_link ++
  ("\n  </main>\n\n  <aside>\n    " ++
  ((ads.getD "") ++
  ("\n  </aside>\n\n  <script src=\"" ++
  (SCRIPT_SRC ++
  "\"></script>\n</body>\n</html>\n")))))))))))))))

/-- The file name `f"{date_str}-{slug}.html"` built by `write_post_file`. -/
def filenameFor (dt : PyDateTime) (title : String) : String :=
  dt.ymd ++ "-" ++ slugify title ++ ".html"

/-- The manifest record appended by `main` for a fresh entry with resolved
identity `pid`. -/
def buildRecord (e : FeedEntry) (pid : String) (now : PyDateTime) : PostRecord :=
  let title := resolveTitle e
  let dt := pick_datetime e now
  let filename := filenameFor dt title
  { id := pid
    title := title
    slug := filename
    path := "posts/" ++ filename
    date_iso := dt.iso
    source := e.link.getD ""
    summary := summarize_text (contentOf e) 280 }

/-! ### Manifest store and ingestion pipeline -/

/-- Descending comparison on `date_iso` used by
`manifest["posts"].sort(key=lambda x: x.get("date_iso", ""), reverse=True)`:
`a` may come before `b` when `b.date_iso ≤ a.date_iso`. -/
def dateDescLe (a b : PostRecord) : Bool :=
  lexLe b.date_iso.data a.date_iso.data

/-- The sort performed by `save_manifest` before writing: a stable sort by
`date_iso` descending (Python `list.sort` is stable; any stable sort computes
the same list, here realised by `List.mergeSort`). -/
def save_manifest_posts (posts : List PostRecord) : List PostRecord :=
  posts.mergeSort dateDescLe

/-- `set(p.get("id") for p in manifest.get("posts", []) if p.get("id"))`:
the non-empty ids of the loaded posts. -/
def truthyIds (posts : List PostRecord) : List String :=
  (posts.map (fun p => p.id)).filter (fun s => !s.isEmpty)

/-- In-memory state of a run: the manifest post list, the known-identity set,
and the added-count. -/
structure RunState where
  posts : List PostRecord
  known : List String
  added : Nat
deriving DecidableEq

/-- The per-entry body of the ingestion loop: resolve the identity, skip a
known entry, otherwise append the new record, remember the identity and count
the addition. -/
def processEntry (now : PyDateTime) (st : RunState) (e : FeedEntry) : RunState :=
  let pid := post_identity e
  if pid ∈ st.known then st
  else
    { posts := st.posts ++ [buildRecord e pid now]
      known := pid :: st.known
      added := st.added + 1 }

/-- The ingestion loop over a sequence of entries. -/
def runEntries (now : PyDateTime) (st : RunState) (entries : List FeedEntry) : RunState :=
  entries.foldl (processEntry now) st

/-- `FALLBACK_FEEDS`. -/
def FALLBACK_FEEDS : List String :=
  ["https://hnrss.org/frontpage",
   "https://rss.nytimes.com/services/xml/rss/nyt/Technology.xml"]

/-- Feed-list resolution:
`[u.strip() for u in (ENV_FEEDS.split(",") if ENV_FEEDS else FALLBACK_FEEDS) if u.strip()]`
with `ENV_FEEDS = os.getenv("RSS_FEEDS", "").strip()`. -/
def resolveFeeds (envRaw : String) : List String :=
  let env := pyStripStr envRaw
  let src := if env.isEmpty then FALLBACK_FEEDS else (splitCommas env.data).map String.mk
  (src.map pyStripStr).filter (fun u => !u.isEmpty)

/-- Result of one invocation of `main`: the post lists passed to
`save_manifest` (one element per save call), the reported added-count, and the
post list stored in the manifest file when the run ends. -/
structure RunResult where
  savedManifests : List (List PostRecord)
  added : Nat
  disk : List PostRecord
deriving DecidableEq

/-- `main()`: load the manifest (post list `disk`), build the known-id set,
resolve the feed list — returning early, without saving, when it is empty —
otherwise process up to `cap` (`ITEMS_PER_FEED`) entries of each feed in order
and save the sorted manifest exactly once at the end.  `fetch` models
`feedparser.parse(url).entries` (a feed whose parse fails or yields no entries
simply contributes no entries), `now` the wall-clock fallback timestamp. -/
def mainRun (envRaw : String) (cap : Nat) (fetch : String → List FeedEntry)
    (disk : List PostRecord) (now : PyDateTime) : RunResult :=
  let known := truthyIds disk
  let feeds := resolveFeeds envRaw
  if feeds.isEmpty then
    { savedManifests := [], added := 0, disk := disk }
  else
    let entries := (feeds.map (fun u => (fetch u).take cap)).flatten
    let st := runEntries now { posts := disk, known := known, added := 0 } entries
    let saved := save_manifest_posts st.posts
    { savedManifests := [saved], added := st.added, disk := saved }

/-! ### JSON aggregate model for the manifest file -/

/-- A JSON value, as produced by `json.load` (object fields in document
order). -/
inductive JValue where
  | null
  | jbool (b : Bool)
  | jnum (n : Int)
  | jstr (s : String)
  | jarr (elems : List JValue)
  | jobj (fields : List (String × JValue))

/-- First value bound to key `k` in an object field list. -/
def jLookup (k : String) : List (String × JValue) → Option JValue
  | [] => none
  | (k', v) :: rest => if k' = k then some v else jLookup k rest

/-- `isinstance(data, dict)`. -/
def isDict : JValue → Bool
  | .jobj _ => true
  | _ => false

/-- `"posts" in data`. -/
def hasPostsKey : JValue → Bool
  | .jobj fs => (jLookup "posts" fs).isSome
  | _ => false

/-- `isinstance(data["posts"], list)` (with `"posts" in data`). -/
def postsIsList : JValue → Bool
  | .jobj fs =>
    match jLookup "posts" fs with
    | some (.jarr _) => true
    | _ => false
  | _ => false

/-- The reset value `{"posts": []}`. -/
def emptyManifest : JValue :=
  .jobj [("posts", .jarr [])]

/-- Outcome of opening and parsing the manifest file: file absent, JSON parse
error (any exception of `json.load`), or a parsed value. -/
inductive LoadResult where
  | absent
  | parseError
  | ok (v : JValue)

/-- `load_manifest()`: absent file, unparseable content or a wrong top-level
shape all yield the empty manifest; a well-shaped value is returned as is. -/
def load_manifest : LoadResult → JValue
  | .absent => emptyManifest
  | .parseError => emptyManifest
  | .ok v => if isDict v && hasPostsKey v && postsIsList v then v else emptyManifest

/-- Read a string field of a record object, with `""` for anything else
(`p.get(k)` where the pipeline uses the value as a string). -/
def jFieldStr (k : String) : JValue → String
  | .jobj fs =>
    match jLookup k fs with
    | some (.jstr s) => s
    | _ => ""
  | _ => ""

/-- Decode one element of the `posts` array into the record fields the
pipeline reads. -/
def decodePost (v : JValue) : PostRecord :=
  { id := jFieldStr "id" v
    title := jFieldStr "title" v
    slug := jFieldStr "slug" v
    path := jFieldStr "path" v
    date_iso := jFieldStr "date_iso" v
    source := jFieldStr "source" v
    summary := jFieldStr "summary" v }

/-- The decoded `posts` list of a loaded manifest value. -/
def decodePosts : JValue → List PostRecord
  | .jobj fs =>
    match jLookup "posts" fs with
    | some (.jarr xs) => xs.map decodePost
    | _ => []
  | _ => []

/-- Encode an appended record as the JSON object written by `main`, fields in
the order of the dict literal. -/
def encodePost (p : PostRecord) : JValue :=
  .jobj [("id", .jstr p.id), ("title", .jstr p.title), ("slug", .jstr p.slug),
         ("path", .jstr p.path), ("date_iso", .jstr p.date_iso),
         ("source", .jstr p.source), ("summary", .jstr p.summary)]

/-- Replace the value of the `posts` key, keeping every other field (the dict
is mutated only at `manifest["posts"]`). -/
def setPosts : JValue → JValue → JValue
  | .jobj fs, pv => .jobj (fs.map (fun kv => if kv.1 = "posts" then (kv.1, pv) else kv))
  | v, _ => v

/-- Top-level key lookup of a manifest value. -/
def topLookup (v : JValue) (k : String) : Option JValue :=
  match v with
  | .jobj fs => jLookup k fs
  | _ => none

/-- `main()` at the level of the whole persisted JSON aggregate: load, run the
ingestion loop on the decoded post list, and write back the aggregate with
only the `posts` value replaced.  Returns the written document, or `none` when
the run ends before `save_manifest` (empty feed list). -/
def mainFull (r : LoadResult) (envRaw : String) (cap : Nat)
    (fetch : String → List FeedEntry) (now : PyDateTime) : Option JValue :=
  let data := load_manifest r
  let posts := decodePosts data
  let known := truthyIds posts
  let feeds := resolveFeeds envRaw
  if feeds.isEmpty then none
  else
    let entries := (feeds.map (fun u => (fetch u).take cap)).flatten
    let st := runEntries now { posts := posts, known := known, added := 0 } entries
    let sorted := save_manifest_posts st.posts
    some (setPosts data (.jarr (sorted.map encodePost)))

/-- The `id` fields of a post list. -/
def idsOf (posts : List PostRecord) : List String :=
  posts.map (fun p => p.id)

/-- `sub` occurs contiguously inside `hay`. -/
def strContains (hay sub : String) : Prop :=
  sub.data <:+: hay.data

/-- Number of positions of `l` at which `pat` occurs. -/
def countOcc (pat : List Char) : List Char → Nat
  | [] => 0
  | c :: t => (if pat.isPrefixOf (c :: t) then 1 else 0) + countOcc pat t

/-! ### Theorems -/

/-- `lexLe` is reflexive. -/
theorem lexLe_refl (l : List Char) : lexLe l l = true := by
  induction l with
  | nil => rfl
  | cons c t ih => simp [lexLe, ih]

/-- `lexLe` is transitive. -/
theorem lexLe_trans {a b c : List Char} (h1 : lexLe a b = true) (h2 : lexLe b c = true) :
    lexLe a c = true := by
  induction a generalizing b c with
  | nil => rfl
  | cons x as ih =>
    cases b with
    | nil => simp [lexLe] at h1
    | cons y bs =>
      cases c with
      | nil => simp [lexLe] at h2
      | cons z cs =>
        simp only [lexLe] at h1 h2 ⊢
        by_cases hxy : x = y
        · subst hxy
          by_cases hxz : x = z
          · subst hxz
            simp only [if_pos rfl] at h1 h2 ⊢
            exact ih h1 h2
          · simp only [if_pos rfl] at h1
            simpa [hxz] using h2
        · by_cases hyz : y = z
          · subst hyz
            simp only [if_neg hxy] at h1 ⊢
            exact h1
          · simp only [if_neg hxy] at h1
            simp only [if_neg hyz] at h2
            have hxyl : x < y := of_decide_eq_true h1
            have hyzl : y < z := of_decide_eq_true h2
            have hxzl : x < z := lt_trans hxyl hyzl
            simp [ne_of_lt hxzl, hxzl]

/-- `lexLe` is total. -/
theorem lexLe_total (a b : List Char) : (lexLe a b || lexLe b a) = true := by
  induction a generalizing b with
  | nil => simp [lexLe]
  | cons x as ih =>
    cases b with
    | nil => simp [lexLe]
    | cons y bs =>
      simp only [lexLe]
      by_cases hxy : x = y
      · subst hxy
        simpa using ih bs
      · rcases lt_or_gt_of_ne hxy with h | h
        · simp [hxy, h]
        · simp [hxy, Ne.symm hxy, h]

/-- The descending `date_iso` comparison is transitive. -/
theorem dateDescLe_trans (a b c : PostRecord) (h1 : dateDescLe a b = true)
    (h2 : dateDescLe b c = true) : dateDescLe a c = true :=
  lexLe_trans h2 h1

/-- The descending `date_iso` comparison is total. -/
theorem dateDescLe_total (a b : PostRecord) : (dateDescLe a b || dateDescLe b a) = true :=
  lexLe_total _ _

/-- C3: whenever the manifest is persisted, its post list is sorted by
`date_iso` descending; the sort is a permutation of the in-memory list; and it
is stable: the records carrying any fixed `date_iso` value keep exactly their
relative in-memory (insertion) order. -/
theorem save_manifest_sorted_stable (posts : List PostRecord) :
    (save_manifest_posts posts).Pairwise (fun a b => dateDescLe a b = true) ∧
    (save_manifest_posts posts).Perm posts ∧
    ∀ d : String, (save_manifest_posts posts).filter (fun p => p.date_iso = d)
      = posts.filter (fun p => p.date_iso = d) := by
  refine ⟨List.sorted_mergeSort dateDescLe_trans dateDescLe_total posts,
    List.mergeSort_perm posts _, ?_⟩
  intro d
  have hsub : (posts.filter (fun p => p.date_iso = d)).Sublist posts := List.filter_sublist posts
  have hpw : (posts.filter (fun p => p.date_iso = d)).Pairwise
      (fun a b => dateDescLe a b = true) := by
    apply List.pairwise_of_forall_mem_list
    intro a ha b hb
    have ha' : a.date_iso = d := by simpa using (List.mem_filter.mp ha).2
    have hb' : b.date_iso = d := by simpa using (List.mem_filter.mp hb).2
    unfold dateDescLe
    rw [ha', hb']
    exact lexLe_refl _
  have h1 : (posts.filter (fun p => p.date_iso = d)).Sublist (posts.mergeSort dateDescLe) :=
    List.sublist_mergeSort dateDescLe_trans dateDescLe_total hpw hsub
  have h2 : (posts.filter (fun p => p.date_iso = d)).filter (fun p => p.date_iso = d)
      = posts.filter (fun p => p.date_iso = d) :=
    List.filter_eq_self.mpr (fun a ha => (List.mem_filter.mp ha).2)
  have h3 : (posts.filter (fun p => p.date_iso = d)).Sublist
      ((posts.mergeSort dateDescLe).filter (fun p => p.date_iso = d)) :=
    h2 ▸ List.Sublist.filter _ h1
  have h4 : ((posts.mergeSort dateDescLe).filter (fun p => p.date_iso = d)).Perm
      (posts.filter (fun p => p.date_iso = d)) :=
    (List.mergeSort_perm posts _).filter _
  exact (h3.eq_of_length h4.length_eq.symm).symm

/-- A value whose `posts` entry is a list is a dict. -/
theorem postsIsList_isDict {v : JValue} (h : postsIsList v = true) : isDict v = true := by
  cases v <;> simp_all [postsIsList, isDict]

/-- A value whose `posts` entry is a list has a `posts` key. -/
theorem postsIsList_hasPostsKey {v : JValue} (h : postsIsList v = true) :
    hasPostsKey v = true := by
  cases v <;> simp_all [postsIsList, hasPostsKey]
  next fs => split at h <;> simp_all

/-- C4: `load_manifest` is total and never propagates an error: an absent
file, unparseable JSON, a non-dict top level, a missing `posts` key or a
non-list `posts` value all produce the empty manifest `{"posts": []}`, and a
well-shaped parsed value is returned unchanged. -/
theorem load_manifest_total_recovery :
    (load_manifest .absent = emptyManifest) ∧
    (load_manifest .parseError = emptyManifest) ∧
    (∀ v : JValue, isDict v = false → load_manifest (.ok v) = emptyManifest) ∧
    (∀ v : JValue, hasPostsKey v = false → load_manifest (.ok v) = emptyManifest) ∧
    (∀ v : JValue, postsIsList v = false → load_manifest (.ok v) = emptyManifest) ∧
    (∀ v : JValue, postsIsList v = true → load_manifest (.ok v) = v) := by
  refine ⟨rfl, rfl, ?_, ?_, ?_, ?_⟩
  · intro v h
    simp [load_manifest, h]
  · intro v h
    simp [load_manifest, h]
  · intro v h
    simp [load_manifest, h]
  · intro v h
    simp [load_manifest, h, postsIsList_isDict h, postsIsList_hasPostsKey h]

/-- Witness for C4 at a concrete well-shaped manifest value. -/
theorem load_manifest_total_recovery_witness :
    postsIsList (JValue.jobj [("meta", .jstr "m"), ("posts", .jarr [])]) = true ∧
    load_manifest (.ok (JValue.jobj [("meta", .jstr "m"), ("posts", .jarr [])]))
      = JValue.jobj [("meta", .jstr "m"), ("posts", .jarr [])] :=
  ⟨by decide, load_manifest_total_recovery.2.2.2.2.2 _ (by decide)⟩

/-- A SHA-1 hex digest has 40 characters. -/
theorem sha1Hex_length (s : String) : (sha1Hex s).length = 40 := by
  simp [sha1Hex, toHex8, String.length]

/-- The resolved identity is never the empty string. -/
theorem post_identity_ne_empty (e : FeedEntry) : post_identity e ≠ "" := by
  unfold post_identity
  split
  next h1 =>
    cases hid : e.id with
    | none => rw [hid] at h1; simp [optTruthy] at h1
    | some s =>
      rw [hid] at h1
      simp only [optTruthy, Bool.not_eq_true'] at h1
      simp only [Option.getD_some]
      intro hs
      subst hs
      exact absurd h1 (by decide)
  next =>
    split
    next h2 =>
      cases hlk : e.link with
      | none => rw [hlk] at h2; simp [optTruthy] at h2
      | some s =>
        rw [hlk] at h2
        simp only [optTruthy, Bool.not_eq_true'] at h2
        simp only [Option.getD_some]
        intro hs
        subst hs
        exact absurd h2 (by decide)
    next =>
      intro h
      have hl := congrArg String.length h
      rw [sha1Hex_length] at hl
      simp [String.length] at hl

/-- C5: `post_identity` prefers the present non-empty native id, then the
present non-empty link, and otherwise returns the SHA-1 hex digest of
`(title + "|" + summary)[:512]`; the result is never empty, and in the hash
case it is a function of the title and summary alone (the resolver reads its
entry and returns a string, with no side effects). -/
theorem post_identity_precedence (e e' : FeedEntry) :
    (optTruthy e.id = true → post_identity e = e.id.getD "") ∧
    (optTruthy e.id = false → optTruthy e.link = true → post_identity e = e.link.getD "") ∧
    (optTruthy e.id = false → optTruthy e.link = false →
      post_identity e = sha1Hex (((e.title.getD "") ++ "|" ++ (e.summary.getD "")).take 512)) ∧
    post_identity e ≠ "" ∧
    (optTruthy e.id = false → optTruthy e.link = false → optTruthy e'.id = false →
      optTruthy e'.link = false → e.title = e'.title → e.summary = e'.summary →
      post_identity e = post_identity e') := by
  refine ⟨?_, ?_, ?_, post_identity_ne_empty e, ?_⟩
  · intro h
    simp [post_identity, h]
  · intro h1 h2
    simp [post_identity, h1, h2]
  · intro h1 h2
    simp [post_identity, h1, h2]
  · intro h1 h2 h3 h4 ht hs
    simp [post_identity, h1, h2, h3, h4, ht, hs]

/-- Witness for C5: an entry with a native id keeps it verbatim. -/
theorem post_identity_precedence_witness :
    post_identity
      { id := some "abc123", link := some "http://x/1", title := some "Hello World",
        summary := some "Hi", content := [], published := none, updated := none } = "abc123" :=
  ((post_identity_precedence
      { id := some "abc123", link := some "http://x/1", title := some "Hello World",
        summary := some "Hi", content := [], published := none, updated := none }
      { id := some "abc123", link := some "http://x/1", title := some "Hello World",
        summary := some "Hi", content := [], published := none, updated := none }).1
    (by decide)).trans rfl

/-- C8 (amended): the manifest is saved exactly once whenever the resolved
feed list is non-empty — regardless of the feed contents — but a run with an
empty resolved feed list returns early with zero additions and no save at all,
leaving the manifest file untouched. -/
theorem save_called_once_iff_feeds_nonempty (envRaw : String) (cap : Nat)
    (fetch : String → List FeedEntry) (disk : List PostRecord) (now : PyDateTime) :
    (resolveFeeds envRaw ≠ [] → (mainRun envRaw cap fetch disk now).savedManifests.length = 1) ∧
    (resolveFeeds envRaw = [] →
      (mainRun envRaw cap fetch disk now).savedManifests.length = 0 ∧
      (mainRun envRaw cap fetch disk now).added = 0 ∧
      (mainRun envRaw cap fetch disk now).disk = disk) := by
  constructor
  · intro h
    have he : (resolveFeeds envRaw).isEmpty = false := by
      cases hh : (resolveFeeds envRaw).isEmpty
      · rfl
      · exact absurd (List.isEmpty_iff.mp hh) h
    simp [mainRun, he]
  · intro h
    have he : (resolveFeeds envRaw).isEmpty = true := List.isEmpty_iff.mpr h
    simp [mainRun, he]

/-- Witness for C8 (amended): with the fallback feed configuration the feed
list is non-empty, and the run saves exactly once. -/
theorem save_called_once_iff_feeds_nonempty_witness :
    (mainRun "" 20 (fun _ => []) []
      ⟨"2024-01-01T00:00:00+00:00", "2024-01-01"⟩).savedManifests.length = 1 :=
  (save_called_once_iff_feeds_nonempty "" 20 (fun _ => []) []
      ⟨"2024-01-01T00:00:00+00:00", "2024-01-01"⟩).1 (by decide)

/-- C8 counterexample: `RSS_FEEDS=","` resolves to an empty feed list, and the
run then performs no save at all — the manifest is not persisted on that run,
contradicting "persists exactly once ... including the empty case". -/
theorem empty_feeds_skips_save_cex :
    resolveFeeds "," = [] ∧
    (mainRun "," 20 (fun _ => []) []
      ⟨"2024-01-01T00:00:00+00:00", "2024-01-01"⟩).savedManifests = [] := by
  constructor
  · decide
  · decide

/-- Every identity accepted during the ingestion loop is recorded in the known
set before the next entry is considered, and the ids of the post list stay
pairwise distinct. -/
theorem runEntries_invariants (now : PyDateTime) (entries : List FeedEntry) :
    ∀ st : RunState,
      (∀ p ∈ st.posts, p.id ≠ "" → p.id ∈ st.known) →
      (idsOf st.posts).Nodup →
      (∀ p ∈ (runEntries now st entries).posts, p.id ≠ "" →
        p.id ∈ (runEntries now st entries).known) ∧
      (idsOf (runEntries now st entries).posts).Nodup := by
  induction entries with
  | nil => exact fun st h1 h2 => ⟨h1, h2⟩
  | cons e rest ih =>
    intro st h1 h2
    simp only [runEntries, List.foldl_cons] at ih ⊢
    by_cases hk : post_identity e ∈ st.known
    · have hpe : processEntry now st e = st := by simp [processEntry, hk]
      rw [hpe]
      exact ih st h1 h2
    · have hpe : processEntry now st e =
        { posts := st.posts ++ [buildRecord e (post_identity e) now]
          known := post_identity e :: st.known
          added := st.added + 1 } := by
        simp [processEntry, hk]
      rw [hpe]
      have hnotin : post_identity e ∉ idsOf st.posts := by
        intro hmem
        rcases List.mem_map.mp hmem with ⟨p, hp, hpid⟩
        exact hk (hpid ▸ h1 p hp (hpid.symm ▸ post_identity_ne_empty e))
      apply ih
      · intro p hp hne
        rcases List.mem_append.mp hp with hmem | hmem
        · exact List.mem_cons_of_mem _ (h1 p hmem hne)
        · have hpb : p = buildRecord e (post_identity e) now := by simpa using hmem
          subst hpb
          simp [buildRecord]
      · show (idsOf (st.posts ++ [buildRecord e (post_identity e) now])).Nodup
        have : idsOf (st.posts ++ [buildRecord e (post_identity e) now])
            = idsOf st.posts ++ [post_identity e] := by
          simp [idsOf, buildRecord]
        rw [this]
        refine List.Nodup.append h2 (List.nodup_singleton _) ?_
        intro a ha hb
        simp only [List.mem_singleton] at hb
        subst hb
        exact hnotin ha

/-- The known set only grows during the ingestion loop. -/
theorem runEntries_known_mono (now : PyDateTime) (entries : List FeedEntry) :
    ∀ st : RunState, st.known ⊆ (runEntries now st entries).known := by
  induction entries with
  | nil => exact fun st _ h => h
  | cons e rest ih =>
    intro st
    simp only [runEntries, List.foldl_cons] at ih ⊢
    have hstep : st.known ⊆ (processEntry now st e).known := by
      by_cases hk : post_identity e ∈ st.known
      · simp [processEntry, hk]
      · simp only [processEntry, hk, if_neg]
        exact fun a ha => List.mem_cons_of_mem _ ha
    exact fun i hi => ih _ (hstep hi)

/-- Every element of the known set is a non-empty id of the current post
list, throughout the ingestion loop. -/
theorem runEntries_known_spec (now : PyDateTime) (entries : List FeedEntry) :
    ∀ st : RunState,
      (∀ i ∈ st.known, i ≠ "" ∧ i ∈ idsOf st.posts) →
      ∀ i ∈ (runEntries now st entries).known,
        i ≠ "" ∧ i ∈ idsOf (runEntries now st entries).posts := by
  induction entries with
  | nil => exact fun st h => h
  | cons e rest ih =>
    intro st h
    simp only [runEntries, List.foldl_cons] at ih ⊢
    apply ih
    by_cases hk : post_identity e ∈ st.known
    · simpa [processEntry, hk] using h
    · intro i hi
      have hi' : i = post_identity e ∨ i ∈ st.known := by
        simpa [processEntry, hk] using hi
      have hposts : (processEntry now st e).posts
          = st.posts ++ [buildRecord e (post_identity e) now] := by
        simp [processEntry, hk]
      rcases hi' with rfl | hmem
      · refine ⟨post_identity_ne_empty e, ?_⟩
        rw [hposts]
        simp [idsOf, buildRecord]
      · obtain ⟨hne, hmem'⟩ := h i hmem
        refine ⟨hne, ?_⟩
        rw [hposts]
        simp only [idsOf, List.map_append]
        exact List.mem_append_left _ hmem'

/-- After the ingestion loop, the identity of every processed entry is in the
known set. -/
theorem runEntries_processed (now : PyDateTime) (entries : List FeedEntry) :
    ∀ st : RunState, ∀ e ∈ entries, post_identity e ∈ (runEntries now st entries).known := by
  induction entries with
  | nil => intro st e he; simp at he
  | cons e0 rest ih =>
    intro st e he
    simp only [runEntries, List.foldl_cons]
    rcases List.mem_cons.mp he with rfl | hmem
    · have hbase : post_identity e ∈ (processEntry now st e).known := by
        by_cases hk : post_identity e ∈ st.known
        · simp [processEntry, hk]
        · simp [processEntry, hk]
      exact runEntries_known_mono now rest _ hbase
    · exact ih _ e hmem

/-- When every entry's identity is already known, the ingestion loop changes
nothing. -/
theorem runEntries_skip_all (now : PyDateTime) (entries : List FeedEntry) :
    ∀ st : RunState, (∀ e ∈ entries, post_identity e ∈ st.known) →
      runEntries now st entries = st := by
  induction entries with
  | nil => intro st _; rfl
  | cons e rest ih =>
    intro st h
    simp only [runEntries, List.foldl_cons] at ih ⊢
    have hpe : processEntry now st e = st := by
      simp [processEntry, h e (List.mem_cons_self e rest)]
    rw [hpe]
    exact ih st (fun e' he' => h e' (List.mem_cons_of_mem _ he'))

/-- The loaded known-id set records exactly non-empty ids of the loaded
posts. -/
theorem truthyIds_spec (posts : List PostRecord) :
    ∀ i ∈ truthyIds posts, i ≠ "" ∧ i ∈ idsOf posts := by
  intro i hi
  obtain ⟨hmem, hne⟩ := List.mem_filter.mp hi
  refine ⟨?_, hmem⟩
  simp only [Bool.not_eq_true'] at hne
  intro hs
  subst hs
  exact absurd hne (by decide)

/-- A post with a non-empty id contributes it to the loaded known-id set. -/
theorem mem_truthyIds (posts : List PostRecord) :
    ∀ p ∈ posts, p.id ≠ "" → p.id ∈ truthyIds posts := by
  intro p hp hne
  apply List.mem_filter.mpr
  refine ⟨List.mem_map.mpr ⟨p, hp, rfl⟩, ?_⟩
  simp only [Bool.not_eq_true']
  cases hh : p.id.isEmpty
  · rfl
  · exact absurd ((String.isEmpty_iff _).mp hh) hne

/-- A non-empty member of `idsOf posts` is in `truthyIds posts`. -/
theorem mem_truthyIds_of_mem_ids {posts : List PostRecord} {i : String}
    (hmem : i ∈ idsOf posts) (hne : i ≠ "") : i ∈ truthyIds posts := by
  rcases List.mem_map.mp hmem with ⟨p, hp, rfl⟩
  exact mem_truthyIds posts p hp hne

/-- C1: a run preserves uniqueness of `id` across the persisted manifest: if
the loaded post list has pairwise-distinct ids, so does the post list
persisted at the end of the run — an entry whose resolved identity is already
known is skipped, and each accepted identity is added to the known set before
the next entry is considered. -/
theorem manifest_ids_nodup_after_run (envRaw : String) (cap : Nat)
    (fetch : String → List FeedEntry) (disk : List PostRecord) (now : PyDateTime)
    (h : (idsOf disk).Nodup) :
    (idsOf (mainRun envRaw cap fetch disk now).disk).Nodup := by
  cases hf : (resolveFeeds envRaw).isEmpty
  · have hinv := runEntries_invariants now
      (((resolveFeeds envRaw).map (fun u => (fetch u).take cap)).flatten)
      { posts := disk, known := truthyIds disk, added := 0 }
      (mem_truthyIds disk) h
    have hdisk : (mainRun envRaw cap fetch disk now).disk
        = save_manifest_posts (runEntries now
            { posts := disk, known := truthyIds disk, added := 0 }
            (((resolveFeeds envRaw).map (fun u => (fetch u).take cap)).flatten)).posts := by
      simp [mainRun, hf]
    rw [hdisk]
    have hperm : (idsOf (save_manifest_posts (runEntries now
        { posts := disk, known := truthyIds disk, added := 0 }
        (((resolveFeeds envRaw).map (fun u => (fetch u).take cap)).flatten)).posts)).Perm
        (idsOf (runEntries now
        { posts := disk, known := truthyIds disk, added := 0 }
        (((resolveFeeds envRaw).map (fun u => (fetch u).take cap)).flatten)).posts) :=
      (List.mergeSort_perm _ _).map _
    exact hperm.nodup_iff.mpr hinv.2
  · have hdisk : (mainRun envRaw cap fetch disk now).disk = disk := by
      simp [mainRun, hf]
    rw [hdisk]
    exact h

/-- Witness for C1 at a concrete loaded manifest with distinct ids. -/
theorem manifest_ids_nodup_after_run_witness :
    (idsOf [⟨"a", "t", "s", "p", "2024-01-01T00:00:00+00:00", "", "x"⟩]).Nodup ∧
    (idsOf (mainRun "" 20 (fun _ => [])
      [⟨"a", "t", "s", "p", "2024-01-01T00:00:00+00:00", "", "x"⟩]
      ⟨"2024-01-01T00:00:00+00:00", "2024-01-01"⟩).disk).Nodup :=
  ⟨by decide, manifest_ids_nodup_after_run _ _ _ _ _ (by decide)⟩

/-- C2: running the pipeline a second time against the same feed snapshot
(same configuration, feed contents and item cap) adds zero records and leaves
the persisted manifest post list exactly equal to the first run's output: the
identity of every processed entry ends up in the manifest, so the second run
skips every entry, and re-sorting the already-sorted list with the stable sort
changes nothing. -/
theorem second_run_idempotent (envRaw : String) (cap : Nat)
    (fetch : String → List FeedEntry) (disk : List PostRecord) (now1 now2 : PyDateTime) :
    (mainRun envRaw cap fetch (mainRun envRaw cap fetch disk now1).disk now2).added = 0 ∧
    (mainRun envRaw cap fetch (mainRun envRaw cap fetch disk now1).disk now2).disk
      = (mainRun envRaw cap fetch disk now1).disk := by
  cases hf : (resolveFeeds envRaw).isEmpty
  case false =>
    have hr1 : (mainRun envRaw cap fetch disk now1).disk
        = save_manifest_posts (runEntries now1
            { posts := disk, known := truthyIds disk, added := 0 }
            (((resolveFeeds envRaw).map (fun u => (fetch u).take cap)).flatten)).posts := by
      simp [mainRun, hf]
    have hsorted : (mainRun envRaw cap fetch disk now1).disk.Pairwise
        (fun a b => dateDescLe a b = true) := by
      rw [hr1]
      exact List.sorted_mergeSort dateDescLe_trans dateDescLe_total _
    have hfix : save_manifest_posts (mainRun envRaw cap fetch disk now1).disk
        = (mainRun envRaw cap fetch disk now1).disk :=
      List.mergeSort_of_sorted hsorted
    have hknow : ∀ e ∈ ((resolveFeeds envRaw).map (fun u => (fetch u).take cap)).flatten,
        post_identity e ∈ truthyIds (mainRun envRaw cap fetch disk now1).disk := by
      intro e he
      have h1 : post_identity e ∈ (runEntries now1
          { posts := disk, known := truthyIds disk, added := 0 }
          (((resolveFeeds envRaw).map (fun u => (fetch u).take cap)).flatten)).known :=
        runEntries_processed now1 _ _ e he
      have h2 := runEntries_known_spec now1
        (((resolveFeeds envRaw).map (fun u => (fetch u).take cap)).flatten)
        { posts := disk, known := truthyIds disk, added := 0 }
        (truthyIds_spec disk) (post_identity e) h1
      obtain ⟨hne, hmem⟩ := h2
      have hperm : (idsOf (mainRun envRaw cap fetch disk now1).disk).Perm
          (idsOf (runEntries now1
            { posts := disk, known := truthyIds disk, added := 0 }
            (((resolveFeeds envRaw).map (fun u => (fetch u).take cap)).flatten)).posts) := by
        rw [hr1]
        exact (List.mergeSort_perm _ _).map _
      exact mem_truthyIds_of_mem_ids (hperm.mem_iff.mpr hmem) hne
    have hskip : runEntries now2
        { posts := (mainRun envRaw cap fetch disk now1).disk
          known := truthyIds (mainRun envRaw cap fetch disk now1).disk
          added := 0 }
        (((resolveFeeds envRaw).map (fun u => (fetch u).take cap)).flatten)
        = { posts := (mainRun envRaw cap fetch disk now1).disk
            known := truthyIds (mainRun envRaw cap fetch disk now1).disk
            added := 0 } :=
      runEntries_skip_all now2 _ _ hknow
    constructor
    · simp only [mainRun, hf, Bool.false_eq_true, if_false]
      rw [← hr1, hskip]
    · simp only [mainRun, hf, Bool.false_eq_true, if_false]
      rw [← hr1, hskip]
      exact hfix
  case true =>
    simp [mainRun, hf]

/-- Replacing the `posts` value leaves every other key's binding unchanged. -/
theorem jLookup_setPosts (fs : List (String × JValue)) (pv : JValue) (k : String)
    (hk : k ≠ "posts") :
    jLookup k (fs.map (fun kv => if kv.1 = "posts" then (kv.1, pv) else kv)) = jLookup k fs := by
  induction fs with
  | nil => rfl
  | cons kv rest ih =>
    obtain ⟨k', v⟩ := kv
    show jLookup k ((if k' = "posts" then (k', pv) else (k', v)) ::
      rest.map (fun kv => if kv.1 = "posts" then (kv.1, pv) else kv)) = jLookup k ((k', v) :: rest)
    by_cases hkp : k' = "posts"
    · rw [if_pos hkp]
      subst hkp
      have hne : ("posts" : String) ≠ k := fun h => hk h.symm
      simp only [jLookup, if_neg hne]
      exact ih
    · rw [if_neg hkp]
      simp only [jLookup]
      by_cases hkk : k' = k
      · rw [if_pos hkk, if_pos hkk]
      · rw [if_neg hkk, if_neg hkk]
        exact ih

/-- C10: for a structurally valid loaded manifest (a dict whose `posts` value
is a list), a run that reaches the save preserves every top-level key other
than `posts` unchanged in the persisted aggregate: load returns the whole
parsed value, the pipeline replaces only the `posts` value, and the full
aggregate is written back. -/
theorem run_preserves_other_manifest_keys (v : JValue) (envRaw : String) (cap : Nat)
    (fetch : String → List FeedEntry) (now : PyDateTime)
    (hs : postsIsList v = true) (hf : (resolveFeeds envRaw).isEmpty = false)
    (k : String) (hk : k ≠ "posts") :
    ∃ w, mainFull (.ok v) envRaw cap fetch now = some w ∧ topLookup w k = topLookup v k := by
  have hload : load_manifest (.ok v) = v := by
    simp [load_manifest, hs, postsIsList_isDict hs, postsIsList_hasPostsKey hs]
  cases v with
  | jobj fs =>
    obtain ⟨w, hw⟩ : ∃ w, mainFull (.ok (JValue.jobj fs)) envRaw cap fetch now = some w := by
      simp only [mainFull, hload, hf, Bool.false_eq_true, if_false]
      exact ⟨_, rfl⟩
    refine ⟨w, hw, ?_⟩
    simp only [mainFull, hload, hf, Bool.false_eq_true, if_false, Option.some.injEq] at hw
    rw [← hw]
    simp only [setPosts, topLookup]
    exact jLookup_setPosts fs _ k hk
  | null => simp [postsIsList] at hs
  | jbool b => simp [postsIsList] at hs
  | jnum n => simp [postsIsList] at hs
  | jstr s => simp [postsIsList] at hs
  | jarr xs => simp [postsIsList] at hs

/-- Witness for C10 at a concrete manifest with an extra top-level key. -/
theorem run_preserves_other_manifest_keys_witness :
    ∃ w, mainFull (.ok (.jobj [("meta", .jstr "m"), ("posts", .jarr [])])) "" 20
        (fun _ => []) ⟨"2024-01-01T00:00:00+00:00", "2024-01-01"⟩ = some w ∧
      topLookup w "meta"
        = topLookup (.jobj [("meta", .jstr "m"), ("posts", .jarr [])]) "meta" :=
  run_preserves_other_manifest_keys _ "" 20 _ _ (by decide) (by decide) "meta" (by decide)

/-- A list without `'>'` cannot complete a tag. -/
theorem completesTag_of_not_mem {l : List Char} (h : '>' ∉ l) : completesTag l = false := by
  have ht : l.takeWhile (fun c => c ≠ '>') = l := by
    apply List.takeWhile_eq_self_iff.mpr
    intro x hx
    simp only [ne_eq, decide_eq_true_eq]
    intro e
    exact h (e ▸ hx)
  simp only [completesTag, ht]
  simp

/-- A list starting with `'>'` cannot complete a tag. -/
theorem completesTag_gt (rest : List Char) : completesTag ('>' :: rest) = false := by
  have : List.takeWhile (fun c => decide (c ≠ '>')) ('>' :: rest) = [] := by
    rw [List.takeWhile_cons]
    simp
  simp only [completesTag, this]
  simp

/-- A list without `'>'` has no tag. -/
theorem hasTag_of_not_mem {l : List Char} (h : '>' ∉ l) : hasTag l = false := by
  induction l with
  | nil => rfl
  | cons c t ih =>
    have hc : '>' ∉ t := fun hm => h (List.mem_cons_of_mem _ hm)
    rw [hasTag, ih hc, completesTag_of_not_mem hc]
    simp

/-- If some element of `l` falsifies `p`, `takeWhile p l` is a proper
prefix. -/
theorem takeWhile_lt_of_mem {p : Char → Bool} {l : List Char} {x : Char}
    (hx : x ∈ l) (hpx : p x = false) : (l.takeWhile p).length < l.length := by
  induction l with
  | nil => cases hx
  | cons c t ih =>
    by_cases hpc : p c = true
    · rw [List.takeWhile_cons_of_pos hpc]
      simp only [List.length_cons]
      have hxt : x ∈ t := by
        rcases List.mem_cons.mp hx with rfl | h'
        · rw [hpx] at hpc; cases hpc
        · exact h'
      exact Nat.succ_lt_succ (ih hxt)
    · rw [List.takeWhile_cons, if_neg hpc]
      simp

/-- Characterisation of tag completion: a non-`'>'` head and a later `'>'`. -/
theorem completesTag_eq_true_iff (l : List Char) :
    completesTag l = true ↔ (∃ c t, l = c :: t ∧ c ≠ '>') ∧ '>' ∈ l := by
  cases l with
  | nil => simp [completesTag]
  | cons c t =>
    by_cases hc : c = '>'
    · subst hc
      rw [completesTag_gt]
      constructor
      · intro h; cases h
      · rintro ⟨⟨c', t', heq, hne⟩, -⟩
        injection heq with h1 _
        exact absurd h1.symm hne
    · constructor
      · intro h
        refine ⟨⟨c, t, rfl, hc⟩, ?_⟩
        by_contra hmem
        rw [completesTag_of_not_mem hmem] at h
        cases h
      · rintro ⟨-, hmem⟩
        have hlt := takeWhile_lt_of_mem (p := fun x => decide (x ≠ '>')) hmem (by simp)
        have heq : List.takeWhile (fun c => decide (c ≠ '>')) (c :: t)
            = c :: List.takeWhile (fun c => decide (c ≠ '>')) t :=
          List.takeWhile_cons_of_pos (by simp [hc])
        simp only [completesTag]
        rw [heq] at hlt ⊢
        simp only [List.isEmpty_cons, Bool.not_false, Bool.true_and]
        exact decide_eq_true hlt

/-- Tag completion fails on a prefix when it fails on the whole list. -/
theorem completesTag_append_false {a b : List Char} (h : completesTag (a ++ b) = false) :
    completesTag a = false := by
  by_contra hca
  rw [Bool.not_eq_false] at hca
  obtain ⟨⟨c, t, rfl, hc⟩, hmem⟩ := (completesTag_eq_true_iff a).mp hca
  have htrue : completesTag ((c :: t) ++ b) = true := by
    apply (completesTag_eq_true_iff _).mpr
    refine ⟨⟨c, t ++ b, by simp, hc⟩, ?_⟩
    exact List.mem_append_left _ hmem
  rw [htrue] at h
  cases h

/-- Tag completion stays false after appending a non-`'>'` character. -/
theorem completesTag_concat_false {a : List Char} {c : Char}
    (h : completesTag a = false) (hc : c ≠ '>') : completesTag (a ++ [c]) = false := by
  by_contra hca
  rw [Bool.not_eq_false] at hca
  obtain ⟨⟨d, t, heq, hd⟩, hmem⟩ := (completesTag_eq_true_iff _).mp hca
  have hmem' : '>' ∈ a := by
    rcases List.mem_append.mp hmem with h' | h'
    · exact h'
    · simp only [List.mem_singleton] at h'
      exact absurd h'.symm hc
  cases a with
  | nil => cases hmem'
  | cons a0 t0 =>
    simp only [List.cons_append] at heq
    injection heq with h1 _
    have htrue : completesTag (a0 :: t0) = true := by
      apply (completesTag_eq_true_iff _).mpr
      exact ⟨⟨a0, t0, rfl, h1 ▸ hd⟩, hmem'⟩
    rw [htrue] at h
    cases h

/-- Characters of the run-collapsing scanner output come from the input or
are the replacement character. -/
theorem mem_subRunsAux {p : Char → Bool} {r : Char} {l : List Char} {b : Bool} {c : Char}
    (h : c ∈ subRunsAux p r b l) : c ∈ l ∨ c = r := by
  induction l generalizing b with
  | nil => cases h
  | cons c0 t ih =>
    rw [subRunsAux] at h
    by_cases hp : p c0 = true
    · rw [if_pos hp] at h
      cases b with
      | false =>
        simp only [if_neg Bool.false_ne_true] at h
        rcases List.mem_cons.mp h with rfl | h'
        · exact Or.inr rfl
        · rcases ih h' with h'' | h''
          · exact Or.inl (List.mem_cons_of_mem _ h'')
          · exact Or.inr h''
      | true =>
        simp only [if_pos] at h
        rcases ih h with h'' | h''
        · exact Or.inl (List.mem_cons_of_mem _ h'')
        · exact Or.inr h''
    · rw [if_neg hp] at h
      rcases List.mem_cons.mp h with rfl | h'
      · exact Or.inl (List.mem_cons_self _ _)
      · rcases ih h' with h'' | h''
        · exact Or.inl (List.mem_cons_of_mem _ h'')
        · exact Or.inr h''

/-- Tag completion stays false through whitespace collapsing. -/
theorem completesTag_subRuns_false {l : List Char} {b : Bool}
    (h : completesTag l = false) :
    completesTag (subRunsAux isPySpace ' ' b l) = false := by
  by_contra hca
  rw [Bool.not_eq_false] at hca
  obtain ⟨⟨c, t, heq, hc⟩, hmem⟩ := (completesTag_eq_true_iff _).mp hca
  have hmem' : '>' ∈ l := by
    rcases mem_subRunsAux hmem with h' | h'
    · exact h'
    · cases h'
  cases l with
  | nil => cases hmem'
  | cons c0 t0 =>
    by_cases hc0 : c0 = '>'
    · subst hc0
      have hout : subRunsAux isPySpace ' ' b ('>' :: t0)
          = '>' :: subRunsAux isPySpace ' ' false t0 := by
        rw [subRunsAux, if_neg (by decide : ¬isPySpace '>' = true)]
      rw [hout] at heq
      injection heq with h1 _
      exact hc h1.symm
    · have htrue : completesTag (c0 :: t0) = true :=
        (completesTag_eq_true_iff _).mpr ⟨⟨c0, t0, rfl, hc0⟩, hmem'⟩
      rw [htrue] at h
      cases h

/-- A suffix of a tag-free list is tag-free. -/
theorem hasTag_append_right {a b : List Char} (h : hasTag (a ++ b) = false) :
    hasTag b = false := by
  induction a with
  | nil => exact h
  | cons c t ih =>
    rw [List.cons_append, hasTag] at h
    simp only [Bool.or_eq_false_iff] at h
    exact ih h.2

/-- A prefix of a tag-free list is tag-free. -/
theorem hasTag_append_left {a b : List Char} (h : hasTag (a ++ b) = false) :
    hasTag a = false := by
  induction a with
  | nil => rfl
  | cons c t ih =>
    rw [List.cons_append, hasTag] at h
    simp only [Bool.or_eq_false_iff] at h
    obtain ⟨h1, h2⟩ := h
    rw [hasTag]
    simp only [Bool.or_eq_false_iff]
    refine ⟨?_, ih h2⟩
    rcases Bool.and_eq_false_iff.mp h1 with h' | h'
    · exact Bool.and_eq_false_iff.mpr (Or.inl h')
    · exact Bool.and_eq_false_iff.mpr (Or.inr (completesTag_append_false h'))

/-- Appending a non-`'>'` character preserves tag-freeness. -/
theorem hasTag_concat {l : List Char} {c : Char} (h : hasTag l = false) (hc : c ≠ '>') :
    hasTag (l ++ [c]) = false := by
  induction l with
  | nil =>
    rw [List.nil_append, hasTag]
    rw [completesTag_of_not_mem (l := []) (by simp)]
    simpa using h
  | cons d t ih =>
    rw [hasTag] at h
    simp only [Bool.or_eq_false_iff] at h
    obtain ⟨h1, h2⟩ := h
    rw [List.cons_append, hasTag]
    simp only [Bool.or_eq_false_iff]
    refine ⟨?_, ih h2⟩
    rcases Bool.and_eq_false_iff.mp h1 with h' | h'
    · exact Bool.and_eq_false_iff.mpr (Or.inl h')
    · exact Bool.and_eq_false_iff.mpr (Or.inr (completesTag_concat_false h' hc))

/-- Whitespace collapsing preserves tag-freeness. -/
theorem hasTag_subRuns {l : List Char} {b : Bool} (h : hasTag l = false) :
    hasTag (subRunsAux isPySpace ' ' b l) = false := by
  induction l generalizing b with
  | nil => cases b <;> rfl
  | cons c t ih =>
    rw [hasTag] at h
    simp only [Bool.or_eq_false_iff] at h
    obtain ⟨h1, h2⟩ := h
    rw [subRunsAux]
    by_cases hp : isPySpace c = true
    · rw [if_pos hp]
      cases b with
      | true =>
        simp only [if_pos]
        exact ih h2
      | false =>
        simp only [if_neg Bool.false_ne_true]
        rw [hasTag]
        rw [ih h2]
        simp
    · rw [if_neg hp]
      rw [hasTag]
      simp only [Bool.or_eq_false_iff]
      refine ⟨?_, ih h2⟩
      rcases Bool.and_eq_false_iff.mp h1 with h' | h'
      · exact Bool.and_eq_false_iff.mpr (Or.inl h')
      · exact Bool.and_eq_false_iff.mpr (Or.inr (completesTag_subRuns_false h'))


/-- The tag-stripping scanner never leaves a tag in its output, whatever the
pending candidate. -/
theorem hasTag_stripTagsAux (l : List Char) :
    ∀ q : List Char, '>' ∉ q →
      hasTag (stripTagsAux (some ('<' :: q)) l) = false ∧
      hasTag (stripTagsAux none l) = false := by
  induction l with
  | nil =>
    intro q hq
    constructor
    · show hasTag ('<' :: q) = false
      rw [hasTag, completesTag_of_not_mem hq, hasTag_of_not_mem hq]
      simp
    · rfl
  | cons c rest ih =>
    intro q hq
    constructor
    · show hasTag (stripTagsAux (some ('<' :: q)) (c :: rest)) = false
      rw [stripTagsAux]
      by_cases hc : c = '>'
      · rw [if_pos hc]
        by_cases hlen : 2 ≤ ('<' :: q).length
        · rw [if_pos hlen]
          rw [hasTag, (ih [] (by simp)).2]
          simp
        · rw [if_neg hlen]
          have hq0 : q = [] := by
            cases q with
            | nil => rfl
            | cons x xs =>
              exact absurd (by simp only [List.length_cons]; omega) hlen
          subst hq0
          show hasTag (['<'] ++ '>' :: stripTagsAux none rest) = false
          rw [List.singleton_append, hasTag, hasTag]
          rw [completesTag_gt, (ih [] (by simp)).2]
          simp
      · rw [if_neg hc]
        have hq' : '>' ∉ q ++ [c] := by
          intro hm
          rcases List.mem_append.mp hm with h' | h'
          · exact hq h'
          · simp only [List.mem_singleton] at h'
            exact hc h'.symm
        have := (ih (q ++ [c]) hq').1
        simpa [List.cons_append] using this
    · show hasTag (stripTagsAux none (c :: rest)) = false
      rw [stripTagsAux]
      by_cases hc : c = '<'
      · rw [if_pos hc]
        exact (ih [] (by simp)).1
      · rw [if_neg hc]
        rw [hasTag, (ih [] (by simp)).2]
        simp [hc]

/-- `re.sub(r"<[^>]+>", " ", html)` leaves no tag. -/
theorem hasTag_stripTags (l : List Char) : hasTag (stripTags l) = false :=
  (hasTag_stripTagsAux l [] (by simp)).2

/-- Right-stripping splits a list into the stripped part and the removed
tail. -/
theorem stripRight_eq_append (p : Char → Bool) (l : List Char) :
    l = stripRight p l ++ (l.reverse.takeWhile p).reverse := by
  unfold stripRight
  conv_lhs => rw [← List.reverse_reverse l,
    ← List.takeWhile_append_dropWhile (p := p) (l := l.reverse)]
  rw [List.reverse_append]

/-- The markup-stripped, whitespace-collapsed, stripped text has no tag. -/
theorem hasTag_cleanText (html : String) : hasTag (cleanText html) = false := by
  have h1 : hasTag (subRuns isPySpace ' ' (stripTags html.data)) = false :=
    hasTag_subRuns (hasTag_stripTags _)
  have h2 : hasTag ((subRuns isPySpace ' ' (stripTags html.data)).dropWhile isPySpace)
      = false := by
    apply hasTag_append_right
      (a := (subRuns isPySpace ' ' (stripTags html.data)).takeWhile isPySpace)
    rw [List.takeWhile_append_dropWhile]
    exact h1
  have hdec := stripRight_eq_append isPySpace
    ((subRuns isPySpace ' ' (stripTags html.data)).dropWhile isPySpace)
  rw [hdec] at h2
  exact hasTag_append_left h2

/-- The produced summary never contains a markup tag. -/
theorem hasTag_summarize (html : String) (maxLen : Nat) :
    hasTag (summarize_text html maxLen).data = false := by
  unfold summarize_text
  by_cases hlen : maxLen < (cleanText html).length
  · rw [if_pos hlen]
    show hasTag (stripRight isPySpace (pySliceTo (cleanText html) ((maxLen : Int) - 1))
      ++ ['…']) = false
    apply hasTag_concat _ (by decide)
    have hsl : hasTag (pySliceTo (cleanText html) ((maxLen : Int) - 1)) = false := by
      unfold pySliceTo
      split
      · apply hasTag_append_left (b := (cleanText html).drop ((maxLen : Int) - 1).toNat)
        rw [List.take_append_drop]
        exact hasTag_cleanText html
      · apply hasTag_append_left
          (b := (cleanText html).drop
            ((cleanText html).length - (-((maxLen : Int) - 1)).toNat))
        rw [List.take_append_drop]
        exact hasTag_cleanText html
    have hdec := stripRight_eq_append isPySpace
      (pySliceTo (cleanText html) ((maxLen : Int) - 1))
    rw [hdec] at hsl
    exact hasTag_append_left hsl
  · rw [if_neg hlen]
    exact hasTag_cleanText html

/-- C6 (amended): when the markup-stripped, whitespace-collapsed text exceeds
the configured maximum length (280 by default, any positive bound), the
produced summary has length at most the maximum, ends with the ellipsis
marker, and contains no markup tag. -/
theorem summarize_truncation_bounded (html : String) (maxLen : Nat) (h1 : 1 ≤ maxLen)
    (h2 : maxLen < (cleanText html).length) :
    (summarize_text html maxLen).length ≤ maxLen ∧
    (summarize_text html maxLen).data.getLast? = some '…' ∧
    hasTag (summarize_text html maxLen).data = false := by
  refine ⟨?_, ?_, hasTag_summarize html maxLen⟩
  · unfold summarize_text
    rw [if_pos h2]
    show (stripRight isPySpace (pySliceTo (cleanText html) ((maxLen : Int) - 1))
      ++ ['…']).length ≤ maxLen
    have hlen1 : (pySliceTo (cleanText html) ((maxLen : Int) - 1)).length ≤ maxLen - 1 := by
      unfold pySliceTo
      rw [if_pos (by omega : (0 : Int) ≤ (maxLen : Int) - 1)]
      have ht : ((maxLen : Int) - 1).toNat = maxLen - 1 := by omega
      rw [ht, List.length_take]
      exact min_le_left _ _
    have hlen2 : (stripRight isPySpace (pySliceTo (cleanText html) ((maxLen : Int) - 1))).length
        ≤ (pySliceTo (cleanText html) ((maxLen : Int) - 1)).length := by
      conv_rhs => rw [stripRight_eq_append isPySpace
        (pySliceTo (cleanText html) ((maxLen : Int) - 1))]
      rw [List.length_append]
      omega
    rw [List.length_append]
    simp only [List.length_singleton]
    omega
  · unfold summarize_text
    rw [if_pos h2]
    show (stripRight isPySpace (pySliceTo (cleanText html) ((maxLen : Int) - 1))
      ++ ['…']).getLast? = some '…'
    exact List.getLast?_concat _

/-- Witness for C6 (amended) on a 300-character input. -/
theorem summarize_truncation_bounded_witness :
    1 ≤ 280 ∧ 280 < (cleanText (String.mk (List.replicate 300 'a'))).length ∧
    ((summarize_text (String.mk (List.replicate 300 'a')) 280).length ≤ 280 ∧
      (summarize_text (String.mk (List.replicate 300 'a')) 280).data.getLast? = some '…' ∧
      hasTag (summarize_text (String.mk (List.replicate 300 'a')) 280).data = false) :=
  ⟨by decide, by decide,
    summarize_truncation_bounded (String.mk (List.replicate 300 'a')) 280
      (by decide) (by decide)⟩

/-- C6 counterexample: on a 283-character text whose 279th character is a
space, the truncated summary has length 279, not exactly 280 — the
`rstrip()` before the ellipsis can make the result shorter than the maximum
length. -/
theorem summarize_not_exact_length_cex :
    280 < (cleanText (String.mk (List.replicate 278 'a' ++ " bbbb".data))).length ∧
    (summarize_text (String.mk (List.replicate 278 'a' ++ " bbbb".data)) 280).length = 279 := by
  constructor
  · decide
  · decide

/-- Characters emitted by the run-collapsing scanner either falsify the run
predicate or are the replacement character. -/
theorem mem_subRunsAux_p_false {p : Char → Bool} {r : Char} {l : List Char} {b : Bool} {c : Char}
    (h : c ∈ subRunsAux p r b l) : p c = false ∨ c = r := by
  induction l generalizing b with
  | nil => cases h
  | cons c0 t ih =>
    rw [subRunsAux] at h
    by_cases hp : p c0 = true
    · rw [if_pos hp] at h
      cases b with
      | false =>
        simp only [if_neg Bool.false_ne_true] at h
        rcases List.mem_cons.mp h with rfl | h'
        · exact Or.inr rfl
        · exact ih h'
      | true =>
        simp only [if_pos] at h
        exact ih h
    · rw [if_neg hp] at h
      rcases List.mem_cons.mp h with rfl | h'
      · exact Or.inl (by simpa using hp)
      · exact ih h'

/-- Collapsing hyphen runs leaves no two adjacent hyphens, and in run state
the output cannot start with a hyphen. -/
theorem chain'_subRunsAux_hyphen (l : List Char) :
    (∀ b, List.Chain' notBothHyphens (subRunsAux (fun c => c = '-') '-' b l)) ∧
    (∀ c, (subRunsAux (fun c => c = '-') '-' true l).head? = some c → c ≠ '-') := by
  induction l with
  | nil =>
    constructor
    · intro b; cases b <;> exact List.chain'_nil
    · intro c hc; simp [subRunsAux] at hc
  | cons c0 t ih =>
    by_cases hp : c0 = '-'
    · subst hp
      have e1 : subRunsAux (fun c => c = '-') '-' true ('-' :: t)
          = subRunsAux (fun c => c = '-') '-' true t := by
        rw [subRunsAux]; simp
      have e2 : subRunsAux (fun c => c = '-') '-' false ('-' :: t)
          = '-' :: subRunsAux (fun c => c = '-') '-' true t := by
        rw [subRunsAux]; simp
      constructor
      · intro b
        cases b with
        | true => rw [e1]; exact ih.1 true
        | false =>
          rw [e2]
          refine List.chain'_cons'.mpr ⟨?_, ih.1 true⟩
          intro y hy
          exact fun hcon => (ih.2 y hy) hcon.2
      · intro c hc
        rw [e1] at hc
        exact ih.2 c hc
    · have e3 : ∀ b, subRunsAux (fun c => c = '-') '-' b (c0 :: t)
          = c0 :: subRunsAux (fun c => c = '-') '-' false t := by
        intro b; rw [subRunsAux]; simp [hp]
      constructor
      · intro b
        rw [e3 b]
        refine List.chain'_cons'.mpr ⟨?_, ih.1 false⟩
        intro y hy
        exact fun hcon => hp hcon.1
      · intro c hc
        rw [e3 true] at hc
        simp only [List.head?_cons, Option.some.injEq] at hc
        subst hc
        exact hp

/-- The head of `dropWhile p l` falsifies `p`. -/
theorem head_dropWhile_not {p : Char → Bool} (l : List Char) :
    ∀ c, (l.dropWhile p).head? = some c → p c = false := by
  induction l with
  | nil => intro c hc; simp [List.dropWhile] at hc
  | cons c0 t ih =>
    intro c hc
    rw [List.dropWhile_cons] at hc
    by_cases hp : p c0 = true
    · rw [if_pos hp] at hc
      exact ih c hc
    · rw [if_neg hp] at hc
      simp only [List.head?_cons, Option.some.injEq] at hc
      subst hc
      simpa using hp

/-- Stripping hyphens from both ends of a hyphen-collapsed slug-alphabet list
yields a string matching `^[a-z0-9]+(-[a-z0-9]+)*$` unless it is empty. -/
theorem slug_result_ok (t4 : List Char)
    (hchars : ∀ c ∈ t4, slugChar c = true)
    (hchain : List.Chain' notBothHyphens t4)
    (hne : ¬((stripEnds (fun c => c = '-') t4).isEmpty = true)) :
    matchesSlugRe (String.mk (stripEnds (fun c => c = '-') t4)) = true := by
  have hsplit1 : t4 = t4.takeWhile (fun c => c = '-') ++ t4.dropWhile (fun c => c = '-') :=
    (List.takeWhile_append_dropWhile _ _).symm
  have hsplit2 : t4.dropWhile (fun c => c = '-')
      = stripEnds (fun c => c = '-') t4
        ++ ((t4.dropWhile (fun c => c = '-')).reverse.takeWhile (fun c => c = '-')).reverse :=
    stripRight_eq_append (fun c => c = '-') (t4.dropWhile (fun c => c = '-'))
  set t5 := stripEnds (fun c => c = '-') t4 with ht5
  have hne' : t5 ≠ [] := by
    intro h
    rw [h] at hne
    exact hne rfl
  have hsub : ∀ c ∈ t5, c ∈ t4 := by
    intro c hc
    have h1 : c ∈ t4.dropWhile (fun c => c = '-') := by
      rw [hsplit2]
      exact List.mem_append_left _ hc
    rw [hsplit1]
    exact List.mem_append_right _ h1
  have hchainU : List.Chain' notBothHyphens (t4.dropWhile (fun c => c = '-')) := by
    rw [hsplit1] at hchain
    exact (List.chain'_append.mp hchain).2.1
  have hchain5 : List.Chain' notBothHyphens t5 := by
    rw [hsplit2] at hchainU
    exact (List.chain'_append.mp hchainU).1
  have hhead : ∀ c, t5.head? = some c → c ≠ '-' := by
    intro c hc
    have h1 : (t4.dropWhile (fun c => c = '-')).head? = some c := by
      rw [hsplit2, List.head?_append_of_ne_nil _ hne']
      exact hc
    have h2 := head_dropWhile_not t4 c h1
    simpa using h2
  have hlast : ∀ c, t5.getLast? = some c → c ≠ '-' := by
    intro c hc
    have h1 : t5.getLast?
        = ((t4.dropWhile (fun c => c = '-')).reverse.dropWhile (fun c => c = '-')).head? := by
      rw [ht5]
      show (stripRight (fun c => c = '-') (t4.dropWhile (fun c => c = '-'))).getLast? = _
      unfold stripRight
      exact List.getLast?_reverse _
    rw [h1] at hc
    have h2 := head_dropWhile_not _ c hc
    simpa using h2
  simp only [matchesSlugRe, Bool.and_eq_true]
  refine ⟨⟨⟨⟨?_, ?_⟩, ?_⟩, ?_⟩, ?_⟩
  · show (!t5.isEmpty) = true
    cases hb : t5.isEmpty with
    | false => rfl
    | true => exact absurd hb hne
  · show t5.all slugChar = true
    apply List.all_eq_true.mpr
    intro x hx
    exact hchars x (hsub x hx)
  · show t5.head?.all (fun c => c ≠ '-') = true
    cases hh : t5.head? with
    | none => rfl
    | some c => simp [Option.all, hhead c hh]
  · show t5.getLast?.all (fun c => c ≠ '-') = true
    cases hh : t5.getLast? with
    | none => rfl
    | some c => simp [Option.all, hlast c hh]
  · exact decide_eq_true hchain5

/-- All characters surviving the invalid-run and hyphen-run substitutions lie
in the slug alphabet. -/
theorem slug_t4_chars (s : String) :
    ∀ c ∈ subRuns (fun c => c = '-') '-'
        (subRuns (fun c => !slugChar c) '-'
          (subRuns isPySpace '-' (stripEnds isPySpace (pyLower s.data)))),
      slugChar c = true := by
  intro c hc
  rcases mem_subRunsAux hc with h' | h'
  · rcases mem_subRunsAux_p_false h' with h'' | h''
    · simpa using h''
    · subst h''; decide
  · subst h'; decide

/-- C7: for every input title, the generated slug matches
`^[a-z0-9]+(-[a-z0-9]+)*$` or is exactly the fallback `"post"`. -/
theorem slugify_safe (s : String) :
    slugify s = "post" ∨ matchesSlugRe (slugify s) = true := by
  simp only [slugify]
  by_cases h5 : (stripEnds (fun c => c = '-')
      (subRuns (fun c => c = '-') '-'
        (subRuns (fun c => !slugChar c) '-'
          (subRuns isPySpace '-' (stripEnds isPySpace (pyLower s.data)))))).isEmpty = true
  · left
    rw [if_pos h5]
  · right
    rw [if_neg h5]
    exact slug_result_ok _ (slug_t4_chars s) ((chain'_subRunsAux_hyphen _).1 false) h5

/-- A middle component of a concatenation occurs in it. -/
theorem strContains_here (a t b : String) : strContains (a ++ (t ++ b)) t :=
  ⟨a.data, b.data, by simp [String.data_append]⟩

/-- Occurrence is preserved under prepending. -/
theorem strContains_appL (a : String) {hay t : String} (h : strContains hay t) :
    strContains (a ++ hay) t := by
  obtain ⟨u, v, huv⟩ := h
  refine ⟨a.data ++ u, v, ?_⟩
  rw [String.data_append, ← huv]
  simp

/-- A middle component occurs after re-association. -/
theorem strContains_here2 (x t y w : String) : strContains ((x ++ (t ++ y)) ++ w) t := by
  rw [String.append_assoc, String.append_assoc]
  exact strContains_here x t (y ++ w)

/-- C9 (amended): `render_html` embeds the title, the date and a non-empty
source link verbatim — without escaping — into the produced document. -/
theorem render_html_embeds_verbatim (t d c l : String) (ads : Option String) :
    strContains (render_html t d c (some l) ads) t ∧
    strContains (render_html t d c (some l) ads) d ∧
    (l ≠ "" → strContains (render_html t d c (some l) ads) l) := by
  refine ⟨?_, ?_, ?_⟩
  · unfold render_html
    exact strContains_here _ _ _
  · unfold render_html
    exact strContains_appL _ (strContains_appL _ (strContains_appL _ (strContains_appL _
      (strContains_appL _ (strContains_appL _ (strContains_here _ _ _))))))
  · intro hl
    unfold render_html
    have hsnip : sourceSnippet (some l)
        = "<p><a href=\"" ++ (l ++ "\" rel=\"noopener noreferrer\">Source</a></p>") := by
      simp only [sourceSnippet]
      rw [if_neg (fun h => hl ((String.isEmpty_iff l).mp h))]
    rw [hsnip]
    exact strContains_appL _ (strContains_appL _ (strContains_appL _ (strContains_appL _
      (strContains_appL _ (strContains_appL _ (strContains_appL _ (strContains_appL _
        (strContains_appL _ (strContains_appL _ (strContains_appL _
          (strContains_here2 _ _ _ _)))))))))))

/-- Witness for C9 (amended): a concrete non-empty link is embedded
verbatim. -/
theorem render_html_embeds_verbatim_witness :
    strContains (render_html "T" "2024-01-02T00:00:00+00:00" "C" (some "http://x") none)
      "http://x" :=
  (render_html_embeds_verbatim "T" "2024-01-02T00:00:00+00:00" "C" "http://x" none).2.2
    (by decide)

/-- C9 counterexample: with the title `"</h1>"` the rendered document contains
one `<h1>` opening tag but three `</h1>` closing tags — the interpolated title
is not escaped and structurally breaks the document. -/
theorem render_html_unbalanced_cex :
    countOcc "<h1>".data
      (render_html "</h1>" "2024-01-02T00:00:00+00:00" "" none none).data = 1 ∧
    countOcc "</h1>".data
      (render_html "</h1>" "2024-01-02T00:00:00+00:00" "" none none).data = 3 := by
  constructor
  · decide
  · decide
